import Mathlib

/-!
Verification development for the Brownian-motion simulation core
(`brownian_script.js`).

The JavaScript source is shallowly embedded over the reals:
`Math.random()` is modelled by an explicit stream `u : ℕ → ℝ` of draws
together with a cursor into it, floating-point arithmetic is modelled
by real arithmetic, and JavaScript's behaviour on division by zero
(`NaN` / `±Infinity`) is modelled explicitly in the places where a
property depends on it (bin indexing and observed densities).
-/

namespace Brownian

/-- State of the Box–Muller generator: the module-level variables
`hasSecondBoxMuller` (line 9) and `secondBoxMullerValue` (line 10) of
`brownian_script.js`, plus a cursor `pos` into the stream of uniform
draws, modelling the position of the ambient `Math.random()` source. -/
structure GenState where
  hasSecond : Bool
  secondValue : ℝ
  pos : ℕ

/-- Index offset of the first nonzero draw at or after position `p` of
the uniform stream `u`: the loop
`do { u1 = Math.random(); } while (u1 === 0);` (line 23) keeps drawing
until it sees a nonzero value, so the `u1` it produces is the first
nonzero draw.  Totality needs the assumption that a nonzero draw
eventually appears. -/
noncomputable def firstNonzero (u : ℕ → ℝ) (p : ℕ) (h : ∃ k, u (p + k) ≠ 0) : ℕ :=
  Nat.find h

/-- `generateStandardNormal` (lines 12–38): one call to the Box–Muller
generator.  If a second value is cached it is returned and the flag is
cleared, consuming nothing from the uniform stream.  Otherwise `u1` is
the first nonzero draw, `u2` the draw after it, and the call returns
`R·cos θ` while caching `R·sin θ`, advancing the cursor past the
consumed draws. -/
noncomputable def generateStandardNormal (u : ℕ → ℝ)
    (hu : ∀ p, ∃ k, u (p + k) ≠ 0) (st : GenState) : ℝ × GenState :=
  if st.hasSecond then
    (st.secondValue, ⟨false, st.secondValue, st.pos⟩)
  else
    let j := firstNonzero u st.pos (hu st.pos)
    let u1 := u (st.pos + j)
    let u2 := u (st.pos + j + 1)
    let R := Real.sqrt (-2 * Real.log u1)
    let theta := 2 * Real.pi * u2
    (R * Real.cos theta,
      ⟨true, R * Real.sin theta, st.pos + j + 2⟩)

/-- A concrete uniform stream that always returns `1/2`; used to
instantiate the generator theorems on concrete input. -/
noncomputable def constHalf : ℕ → ℝ := fun _ => 1 / 2

/-- The body of the `for` loop of `simulateBrownianMotion`
(lines 49–59), iterated `n` times over a stream `Z` of normal variates:
after `k` iterations the pair holds `path_values` and `current_value`.
Iteration `k` draws `Z k`, adds the jump `sqrtDt * Z k` to the running
total and pushes the new total. -/
noncomputable def bmLoop (sqrtDt : ℝ) (Z : ℕ → ℝ) : ℕ → List ℝ × ℝ
  | 0 => ([], 0)
  | k + 1 =>
    ((bmLoop sqrtDt Z k).1 ++ [(bmLoop sqrtDt Z k).2 + sqrtDt * Z k],
      (bmLoop sqrtDt Z k).2 + sqrtDt * Z k)

/-- `simulateBrownianMotion` (lines 41–65), parameterised by the stream
`Z` of standard-normal variates consumed from the generator:
`dt = T/n`, `sqrt_dt = sqrt(dt)`, then the loop; the result is the pair
`(path_values, final_value)`. -/
noncomputable def simulateBrownianMotion (Z : ℕ → ℝ) (T : ℝ) (n : ℕ) : List ℝ × ℝ :=
  let dt := T / (n : ℝ)
  let sqrt_dt := Real.sqrt dt
  bmLoop sqrt_dt Z n

/-- `normalPDF` (lines 70–74): the theoretical density function of
`N(mu, sigma^2)`. -/
noncomputable def normalPDF (x mu sigma : ℝ) : ℝ :=
  let sigmaSq := sigma * sigma
  let invSqrt2PiSigmaSq := 1 / Real.sqrt (2 * Real.pi * sigmaSq)
  invSqrt2PiSigmaSq * Real.exp (-0.5 * ((x - mu) / sigma) ^ 2)

/-- The parameter check of `runSimulation` (line 83):
`isNaN(T) || isNaN(n) || isNaN(m_runs) || n < 100 || m_runs < 100`.
A `none` argument models a `NaN` produced by `parseFloat`/`parseInt` on
invalid input.  The function returns `true` exactly when the guard
fires and `runSimulation` returns before simulating anything; note the
guard never inspects the sign of `T`. -/
def runSimulationRejects : Option ℝ → Option ℤ → Option ℤ → Bool
  | none, _, _ => true
  | some _, none, _ => true
  | some _, some _, none => true
  | some _, some n, some m => decide (n < 100) || decide (m < 100)

/-- The clamping of a finite bin index (lines 181–182):
`if (binIndex >= bins) binIndex = bins - 1; if (binIndex < 0) binIndex = 0;`
with `bins = 20`. -/
def clampBin (b : ℤ) : ℕ :=
  if 20 ≤ b then 19 else if b < 0 then 0 else b.toNat

/-- The bin index computed for one terminal value (lines 180–182):
`Math.floor((val - min_val) / binWidth)` then clamped.  JavaScript
division by a zero `binWidth` yields `NaN` when `val == min_val`
(and then neither clamp fires and `histogram[NaN]++` touches none of
the 20 numeric entries, modelled by `none`), `+Infinity` when
`val > min_val` (clamped to 19), and `-Infinity` when `val < min_val`
(clamped to 0). -/
noncomputable def jsBinIndex (binWidth mn v : ℝ) : Option ℕ :=
  if binWidth = 0 then
    if v = mn then none
    else if mn < v then some 19
    else some 0
  else some (clampBin ⌊(v - mn) / binWidth⌋)

/-- One iteration of the histogram-building loop (lines 179–184):
increment the bin of `v`, or leave the histogram unchanged when the
index is `NaN`. -/
noncomputable def histogramStep (binWidth mn : ℝ) (h : List ℕ) (v : ℝ) : List ℕ :=
  match jsBinIndex binWidth mn v with
  | none => h
  | some i => h.set i (h.getD i 0 + 1)

/-- The observed histogram (lines 176–184): start from
`new Array(20).fill(0)` and fold the terminal values through the
binning loop. -/
noncomputable def buildHistogram (binWidth mn : ℝ) (vals : List ℝ) : List ℕ :=
  vals.foldl (histogramStep binWidth mn) (List.replicate 20 0)

/-- The running minimum of the terminal values (lines 93–100):
`min_val` starts at `Infinity` (modelled by `none`, below every real)
and is lowered by `if (final_x < min_val) min_val = final_x`. -/
noncomputable def ensembleMin (vals : List ℝ) : Option ℝ :=
  vals.foldl (fun acc v =>
    match acc with
    | none => some v
    | some a => some (if v < a then v else a)) none

/-- The running maximum of the terminal values (lines 94–101):
`max_val` starts at `-Infinity` (modelled by `none`) and is raised by
`if (final_x > max_val) max_val = final_x`. -/
noncomputable def ensembleMax (vals : List ℝ) : Option ℝ :=
  vals.foldl (fun acc v =>
    match acc with
    | none => some v
    | some a => some (if a < v then v else a)) none

/-- The bin width (lines 173–174): `range / bins` with `bins = 20`. -/
noncomputable def binWidthOf (mn mx : ℝ) : ℝ := (mx - mn) / 20

/-- The observed density of one bin (lines 196–197):
`(histogram[i] / m_runs) / binWidth`.  When `binWidth = 0` the JS
result is non-finite (`0/0 = NaN`, or `±Infinity` for a nonzero
count), modelled by `none`. -/
noncomputable def observedDensity (m : ℕ) (binWidth : ℝ) (count : ℕ) : Option ℝ :=
  if binWidth = 0 then none
  else some ((count : ℝ) / (m : ℝ) / binWidth)

/-- The list of the 20 observed densities (lines 191–197). -/
noncomputable def observedDensities (m : ℕ) (binWidth : ℝ) (histo : List ℕ) :
    List (Option ℝ) :=
  histo.map (observedDensity m binWidth)

/-! Helper lemmas about the path-simulation loop. -/

theorem bmLoop_length (s : ℝ) (Z : ℕ → ℝ) (n : ℕ) : (bmLoop s Z n).1.length = n := by
  induction n with
  | zero => rfl
  | succ k ih => simp [bmLoop, ih]

theorem bmLoop_final (s : ℝ) (Z : ℕ → ℝ) (n : ℕ) :
    (bmLoop s Z n).2 = ∑ j ∈ Finset.range n, s * Z j := by
  induction n with
  | zero => simp [bmLoop]
  | succ k ih => simp [bmLoop, ih, Finset.sum_range_succ]

theorem getD_append_lt {α : Type} (d : α) :
    ∀ (l l' : List α) (i : ℕ), i < l.length → (l ++ l').getD i d = l.getD i d := by
  intro l
  induction l with
  | nil => intro l' i h; simp at h
  | cons a t ih =>
    intro l' i h
    cases i with
    | zero => rfl
    | succ j =>
      simp only [List.cons_append, List.getD_cons_succ]
      exact ih l' j (by simpa using h)

theorem getD_append_len {α : Type} (d c : α) :
    ∀ l : List α, (l ++ [c]).getD l.length d = c := by
  intro l
  induction l with
  | nil => rfl
  | cons a t ih => simpa using ih

theorem bmLoop_getD (s : ℝ) (Z : ℕ → ℝ) :
    ∀ (n i : ℕ), i < n →
      (bmLoop s Z n).1.getD i 0 = ∑ j ∈ Finset.range (i + 1), s * Z j := by
  intro n
  induction n with
  | zero => intro i h; exact absurd h (Nat.not_lt_zero i)
  | succ k ih =>
    intro i hi
    simp only [bmLoop]
    rcases Nat.lt_or_ge i k with h | h
    · rw [getD_append_lt 0 _ _ i (by rw [bmLoop_length]; exact h)]
      exact ih i h
    · have hik : i = k := by omega
      subst hik
      have hlen : (bmLoop s Z i).1.length = i := bmLoop_length s Z i
      have hget := getD_append_len 0 ((bmLoop s Z i).2 + s * Z i) (bmLoop s Z i).1
      rw [hlen] at hget
      rw [hget, bmLoop_final, Finset.sum_range_succ]

/-- Claim C1: for every `T > 0` and integer `n ≥ 1`,
`simulateBrownianMotion(T, n)` returns a path of length exactly `n`,
and the returned `final_value` is the last element of that path. -/
theorem simulateBrownianMotion_length_final (Z : ℕ → ℝ) (T : ℝ) (n : ℕ)
    (hT : 0 < T) (hn : 1 ≤ n) :
    (simulateBrownianMotion Z T n).1.length = n ∧
      (simulateBrownianMotion Z T n).1.getLast? = some (simulateBrownianMotion Z T n).2 := by
  obtain ⟨k, rfl⟩ : ∃ k, n = k + 1 := ⟨n - 1, by omega⟩
  constructor
  · simpa [simulateBrownianMotion] using bmLoop_length (Real.sqrt (T / ((k + 1 : ℕ) : ℝ))) Z (k + 1)
  · simp only [simulateBrownianMotion, bmLoop]
    exact List.getLast?_concat _

/-- Witness for C1 at `T = 1`, `n = 1`, `Z ≡ 0`. -/
theorem simulateBrownianMotion_length_final_witness :
    (0 : ℝ) < 1 ∧ 1 ≤ 1 ∧
      ((simulateBrownianMotion (fun _ => 0) 1 1).1.length = 1 ∧
        (simulateBrownianMotion (fun _ => 0) 1 1).1.getLast? =
          some (simulateBrownianMotion (fun _ => 0) 1 1).2) :=
  ⟨by norm_num, le_refl 1,
    simulateBrownianMotion_length_final (fun _ => 0) 1 1 (by norm_num) (le_refl 1)⟩

/-- Claim C2: with `dt = T/n`, each stored position obeys the
recurrence `position[i] = position[i-1] + sqrt(dt)·Z_i` with
`position[-1] ≡ 0`, i.e. each stored position is the cumulative sum of
the scaled increments up to that index. -/
theorem simulateBrownianMotion_recurrence (Z : ℕ → ℝ) (T : ℝ) (n : ℕ)
    (hT : 0 < T) (hn : 1 ≤ n) (i : ℕ) (hi : i < n) :
    (simulateBrownianMotion Z T n).1.getD i 0 =
        (if i = 0 then 0 else (simulateBrownianMotion Z T n).1.getD (i - 1) 0)
          + Real.sqrt (T / (n : ℝ)) * Z i ∧
      (simulateBrownianMotion Z T n).1.getD i 0 =
        ∑ j ∈ Finset.range (i + 1), Real.sqrt (T / (n : ℝ)) * Z j := by
  have hsum : ∀ i' : ℕ, i' < n →
      (simulateBrownianMotion Z T n).1.getD i' 0 =
        ∑ j ∈ Finset.range (i' + 1), Real.sqrt (T / (n : ℝ)) * Z j := by
    intro i' hi'
    simpa [simulateBrownianMotion] using bmLoop_getD (Real.sqrt (T / (n : ℝ))) Z n i' hi'
  refine ⟨?_, hsum i hi⟩
  rcases Nat.eq_zero_or_pos i with h0 | hpos
  · subst h0
    rw [if_pos rfl, hsum 0 hi, zero_add]
    simp
  · obtain ⟨j, rfl⟩ : ∃ j, i = j + 1 := ⟨i - 1, by omega⟩
    rw [if_neg (by omega)]
    simp only [Nat.add_sub_cancel]
    rw [hsum (j + 1) hi, hsum j (by omega), Finset.sum_range_succ]

/-- Witness for C2 at `T = 1`, `n = 2`, `i = 1`, `Z ≡ 1`. -/
theorem simulateBrownianMotion_recurrence_witness :
    (0 : ℝ) < 1 ∧ 1 ≤ 2 ∧ 1 < 2 ∧
      ((simulateBrownianMotion (fun _ => 1) 1 2).1.getD 1 0 =
          (if (1 : ℕ) = 0 then 0 else (simulateBrownianMotion (fun _ => 1) 1 2).1.getD (1 - 1) 0)
            + Real.sqrt (1 / ((2 : ℕ) : ℝ)) * 1 ∧
        (simulateBrownianMotion (fun _ => 1) 1 2).1.getD 1 0 =
          ∑ j ∈ Finset.range (1 + 1), Real.sqrt (1 / ((2 : ℕ) : ℝ)) * 1) :=
  ⟨by norm_num, by norm_num, by norm_num,
    simulateBrownianMotion_recurrence (fun _ => 1) 1 2 (by norm_num) (by norm_num) 1 (by norm_num)⟩

/-! Helper lemmas about the draw-until-nonzero loop. -/

theorem firstNonzero_spec (u : ℕ → ℝ) (p : ℕ) (h : ∃ k, u (p + k) ≠ 0) :
    u (p + firstNonzero u p h) ≠ 0 :=
  Nat.find_spec h

theorem firstNonzero_min (u : ℕ → ℝ) (p : ℕ) (h : ∃ k, u (p + k) ≠ 0)
    (k : ℕ) (hk : k < firstNonzero u p h) : u (p + k) = 0 :=
  not_not.mp (Nat.find_min h hk)

theorem constHalf_nonzero : ∀ p : ℕ, ∃ k, constHalf (p + k) ≠ 0 :=
  fun _ => ⟨0, by norm_num [constHalf]⟩

/-- Claim C6: a call to the generator made while a value is cached
returns exactly the cached value, clears the cached flag and consumes
no draws from the uniform source; a call with no cached value returns
`z1 = R·cos θ`, stores `z2 = R·sin θ` as the cached value and sets the
flag, where `R`, `θ` are built from the first nonzero draw `u1` and
the following draw `u2`. -/
theorem generateStandardNormal_cache (u : ℕ → ℝ) (hu : ∀ p, ∃ k, u (p + k) ≠ 0)
    (st : GenState) :
    (st.hasSecond = true →
      generateStandardNormal u hu st = (st.secondValue, ⟨false, st.secondValue, st.pos⟩)) ∧
    (st.hasSecond = false →
      ∃ j, (∀ k < j, u (st.pos + k) = 0) ∧ u (st.pos + j) ≠ 0 ∧
        generateStandardNormal u hu st =
          (Real.sqrt (-2 * Real.log (u (st.pos + j))) *
              Real.cos (2 * Real.pi * u (st.pos + j + 1)),
            ⟨true,
              Real.sqrt (-2 * Real.log (u (st.pos + j))) *
                Real.sin (2 * Real.pi * u (st.pos + j + 1)),
              st.pos + j + 2⟩)) := by
  constructor
  · intro hc
    simp [generateStandardNormal, hc]
  · intro hc
    refine ⟨firstNonzero u st.pos (hu st.pos),
      fun k hk => firstNonzero_min u st.pos (hu st.pos) k hk,
      firstNonzero_spec u st.pos (hu st.pos), ?_⟩
    simp [generateStandardNormal, hc]

/-- Witness for C6: a cached call on a concrete state. -/
theorem generateStandardNormal_cache_witness :
    generateStandardNormal constHalf constHalf_nonzero ⟨true, 5, 0⟩ = (5, ⟨false, 5, 0⟩) :=
  (generateStandardNormal_cache constHalf constHalf_nonzero ⟨true, 5, 0⟩).1 rfl

/-- Claim C7: in an uncached call the uniform `u1` is redrawn until it
is nonzero, so the argument of the logarithm in
`R = sqrt(-2·ln(u1))` is never `0` (assuming the source eventually
yields a nonzero value): the value `u1` actually consumed is nonzero,
all draws skipped before it were `0`, and the call returns
`sqrt(-2·ln(u1))·cos(2π·u2)` for that `u1`. -/
theorem generateStandardNormal_u1_nonzero (u : ℕ → ℝ) (hu : ∀ p, ∃ k, u (p + k) ≠ 0)
    (c : ℝ) (p : ℕ) :
    u (p + firstNonzero u p (hu p)) ≠ 0 ∧
    (∀ k < firstNonzero u p (hu p), u (p + k) = 0) ∧
    (generateStandardNormal u hu ⟨false, c, p⟩).1 =
      Real.sqrt (-2 * Real.log (u (p + firstNonzero u p (hu p)))) *
        Real.cos (2 * Real.pi * u (p + firstNonzero u p (hu p) + 1)) := by
  refine ⟨firstNonzero_spec u p (hu p),
    fun k hk => firstNonzero_min u p (hu p) k hk, ?_⟩
  simp [generateStandardNormal]

/-- Witness for C7 on the concrete all-nonzero source. -/
theorem generateStandardNormal_u1_nonzero_witness :
    constHalf (0 + firstNonzero constHalf 0 (constHalf_nonzero 0)) ≠ 0 ∧
    (∀ k < firstNonzero constHalf 0 (constHalf_nonzero 0), constHalf (0 + k) = 0) ∧
    (generateStandardNormal constHalf constHalf_nonzero ⟨false, 0, 0⟩).1 =
      Real.sqrt (-2 * Real.log (constHalf (0 + firstNonzero constHalf 0 (constHalf_nonzero 0)))) *
        Real.cos (2 * Real.pi * constHalf (0 + firstNonzero constHalf 0 (constHalf_nonzero 0) + 1)) :=
  generateStandardNormal_u1_nonzero constHalf constHalf_nonzero 0 0

/-- Claim C8: for `sigma > 0`, `normalPDF` computes
`(1/√(2π·σ²))·exp(-0.5·((x-mu)/σ)²)`, and in particular
`normalPDF(0, 0, 2) = 1/(2·sqrt(2π))`. -/
theorem normalPDF_formula (x mu sigma : ℝ) (hs : 0 < sigma) :
    normalPDF x mu sigma =
        1 / Real.sqrt (2 * Real.pi * sigma ^ 2) * Real.exp (-0.5 * ((x - mu) / sigma) ^ 2) ∧
      normalPDF 0 0 2 = 1 / (2 * Real.sqrt (2 * Real.pi)) := by
  constructor
  · simp only [normalPDF]
    rw [pow_two, pow_two]
  · have harg : (-0.5 * (((0 : ℝ) - 0) / 2) ^ 2 : ℝ) = 0 := by norm_num
    have h4 : Real.sqrt (2 * Real.pi * ((2 : ℝ) * 2)) = 2 * Real.sqrt (2 * Real.pi) := by
      rw [show (2 : ℝ) * Real.pi * (2 * 2) = 2 ^ 2 * (2 * Real.pi) by ring,
        Real.sqrt_mul (by positivity) (2 * Real.pi),
        Real.sqrt_sq (by norm_num : (0 : ℝ) ≤ 2)]
    simp only [normalPDF, harg, Real.exp_zero, mul_one]
    rw [h4]

/-- Witness for C8 at `x = 0`, `mu = 0`, `sigma = 2`. -/
theorem normalPDF_formula_witness :
    (0 : ℝ) < 2 ∧
      (normalPDF 0 0 2 =
          1 / Real.sqrt (2 * Real.pi * (2 : ℝ) ^ 2) *
            Real.exp (-0.5 * (((0 : ℝ) - 0) / 2) ^ 2) ∧
        normalPDF 0 0 2 = 1 / (2 * Real.sqrt (2 * Real.pi))) :=
  ⟨by norm_num, normalPDF_formula 0 0 2 (by norm_num)⟩

/-- Claim C9: `normalPDF` is symmetric about the mean, and the density
at the mean strictly exceeds the density one standard deviation away. -/
theorem normalPDF_symm_peak (mu sigma d : ℝ) (hs : 0 < sigma) :
    normalPDF (mu + d) mu sigma = normalPDF (mu - d) mu sigma ∧
      normalPDF (mu + sigma) mu sigma < normalPDF mu mu sigma := by
  have hs0 : sigma ≠ 0 := ne_of_gt hs
  constructor
  · have h : (-0.5 * ((mu + d - mu) / sigma) ^ 2 : ℝ) =
        -0.5 * ((mu - d - mu) / sigma) ^ 2 := by ring
    simp only [normalPDF, h]
  · have h1 : ((mu - mu) / sigma : ℝ) = 0 := by rw [sub_self, zero_div]
    have h2 : ((mu + sigma - mu) / sigma : ℝ) = 1 := by
      rw [show mu + sigma - mu = sigma by ring, div_self hs0]
    have hA : 0 < 1 / Real.sqrt (2 * Real.pi * (sigma * sigma)) := by positivity
    have he : Real.exp (-0.5 * (1 : ℝ) ^ 2) < Real.exp (-0.5 * (0 : ℝ) ^ 2) := by
      apply Real.exp_lt_exp.mpr
      norm_num
    simp only [normalPDF, h1, h2]
    exact mul_lt_mul_of_pos_left he hA

/-- Witness for C9 at `mu = 0`, `sigma = 1`, `d = 3`. -/
theorem normalPDF_symm_peak_witness :
    (0 : ℝ) < 1 ∧
      (normalPDF (0 + 3) 0 1 = normalPDF (0 - 3) 0 1 ∧
        normalPDF (0 + 1) 0 1 < normalPDF 0 0 1) :=
  ⟨by norm_num, normalPDF_symm_peak 0 1 3 (by norm_num)⟩

/-- Claim C10: the implementation of `normalPDF` depends on `sigma`
only through `sigma·sigma` and the square of `(x-mu)/sigma`, so a
negative `sigma` yields exactly the value of its absolute value. -/
theorem normalPDF_neg_sigma (x mu sigma : ℝ) (hs : sigma ≠ 0) :
    normalPDF x mu (-sigma) = normalPDF x mu sigma := by
  have h1 : (-sigma * -sigma : ℝ) = sigma * sigma := by ring
  have h2 : (-0.5 * ((x - mu) / -sigma) ^ 2 : ℝ) = -0.5 * ((x - mu) / sigma) ^ 2 := by
    rw [div_neg]
    ring
  simp only [normalPDF, h1, h2]

/-- Witness for C10 at `x = 1`, `mu = 0`, `sigma = 2`. -/
theorem normalPDF_neg_sigma_witness :
    (2 : ℝ) ≠ 0 ∧ normalPDF 1 0 (-2) = normalPDF 1 0 2 :=
  ⟨by norm_num, normalPDF_neg_sigma 1 0 2 (by norm_num)⟩

/-- Claim C4 (evaluation at the failing input): the parameter guard of
`runSimulation` accepts `T = -1` with `n = 100`, `m = 100` — it never
checks the sign of `T`, so the call is not rejected and the simulation
loop runs with a non-positive horizon, contradicting the policy that
`T ≤ 0` is rejected before any simulation work. -/
theorem runSimulation_guard_ignores_T :
    runSimulationRejects (some (-1)) (some 100) (some 100) = false := rfl

/-! Helper lemmas about the histogram aggregation. -/

theorem clampBin_lt (b : ℤ) : clampBin b < 20 := by
  unfold clampBin
  split_ifs <;> omega

theorem histogramStep_length (bw mn : ℝ) (h : List ℕ) (v : ℝ) :
    (histogramStep bw mn h v).length = h.length := by
  unfold histogramStep
  cases jsBinIndex bw mn v with
  | none => rfl
  | some i => simp [List.length_set]

theorem sum_set_getD (l : List ℕ) : ∀ i : ℕ, i < l.length →
    (l.set i (l.getD i 0 + 1)).sum = l.sum + 1 := by
  induction l with
  | nil => intro i h; simp at h
  | cons a t ih =>
    intro i hi
    cases i with
    | zero =>
      simp only [List.set, List.getD_cons_zero, List.sum_cons]
      omega
    | succ j =>
      have hj : j < t.length := by simpa using hi
      simp only [List.set, List.getD_cons_succ, List.sum_cons, ih j hj]
      omega

theorem histogramStep_sum (bw mn : ℝ) (hbw : bw ≠ 0) (h : List ℕ)
    (hlen : h.length = 20) (v : ℝ) :
    (histogramStep bw mn h v).sum = h.sum + 1 := by
  unfold histogramStep jsBinIndex
  rw [if_neg hbw]
  exact sum_set_getD h _ (by rw [hlen]; exact clampBin_lt _)

theorem foldl_histogramStep_length (bw mn : ℝ) :
    ∀ (vals : List ℝ) (h : List ℕ),
      (vals.foldl (histogramStep bw mn) h).length = h.length := by
  intro vals
  induction vals with
  | nil => intro h; rfl
  | cons v t ih =>
    intro h
    rw [List.foldl_cons, ih, histogramStep_length]

theorem foldl_histogramStep_sum (bw mn : ℝ) (hbw : bw ≠ 0) :
    ∀ (vals : List ℝ) (h : List ℕ), h.length = 20 →
      (vals.foldl (histogramStep bw mn) h).sum = h.sum + vals.length := by
  intro vals
  induction vals with
  | nil => intro h _; simp
  | cons v t ih =>
    intro h hlen
    rw [List.foldl_cons, ih _ (by rw [histogramStep_length]; exact hlen),
      histogramStep_sum bw mn hbw h hlen v, List.length_cons]
    omega

theorem buildHistogram_length (bw mn : ℝ) (vals : List ℝ) :
    (buildHistogram bw mn vals).length = 20 := by
  unfold buildHistogram
  rw [foldl_histogramStep_length]
  simp

theorem buildHistogram_sum (bw mn : ℝ) (hbw : bw ≠ 0) (vals : List ℝ) :
    (buildHistogram bw mn vals).sum = vals.length := by
  unfold buildHistogram
  rw [foldl_histogramStep_sum bw mn hbw vals _ (by simp)]
  simp

theorem ensembleMin_ne_nil (vals : List ℝ) (mn : ℝ) (h : ensembleMin vals = some mn) :
    vals ≠ [] := by
  intro hnil
  subst hnil
  simp [ensembleMin] at h

theorem sum_map_div (m : ℕ) (l : List ℕ) :
    (l.map (fun c : ℕ => (c : ℝ) / (m : ℝ))).sum = ((l.sum : ℕ) : ℝ) / (m : ℝ) := by
  induction l with
  | nil => simp
  | cons a t ih => simp [List.sum_cons, ih, add_div]

/-- Claim C3 (evaluation at the failing input): for the degenerate
ensemble `[0, 0, 0]` the code computes `min = max = 0` and
`binWidth = 0`, every bin index is `floor(0/0) = NaN`, so no bin of
the histogram is ever incremented (the counts sum to `0`, not `m`),
and the observed density of bin 0 is the non-finite `(0/3)/0 = NaN` —
there is no special case producing a single-bin outcome. -/
theorem degenerate_ensemble_not_binned :
    ensembleMin [(0 : ℝ), 0, 0] = some 0 ∧
    ensembleMax [(0 : ℝ), 0, 0] = some 0 ∧
    binWidthOf 0 0 = 0 ∧
    buildHistogram (binWidthOf 0 0) 0 [(0 : ℝ), 0, 0] = List.replicate 20 0 ∧
    (buildHistogram (binWidthOf 0 0) 0 [(0 : ℝ), 0, 0]).sum = 0 ∧
    observedDensity 3 (binWidthOf 0 0)
      ((buildHistogram (binWidthOf 0 0) 0 [(0 : ℝ), 0, 0]).getD 0 0) = none := by
  have hbw : binWidthOf (0 : ℝ) 0 = 0 := by norm_num [binWidthOf]
  refine ⟨by norm_num [ensembleMin], by norm_num [ensembleMax], hbw, ?_, ?_, ?_⟩
  · rw [hbw]
    norm_num [buildHistogram, histogramStep, jsBinIndex]
  · rw [hbw]
    norm_num [buildHistogram, histogramStep, jsBinIndex]
  · rw [hbw]
    simp [observedDensity]

/-- Claim C5 counterexample: the guarantee `Σ count == m` fails on the
code as stated for every ensemble — at the concrete degenerate
ensemble `[0, 0, 0]` (computed `min = max = 0`) the 20 counts sum to
`0`, not `m = 3`. -/
theorem aggregation_histogram_counterexample :
    ensembleMin [(0 : ℝ), 0, 0] = some 0 ∧
    ensembleMax [(0 : ℝ), 0, 0] = some 0 ∧
    ¬((buildHistogram (binWidthOf 0 0) 0 [(0 : ℝ), 0, 0]).sum =
        [(0 : ℝ), 0, 0].length) := by
  have hbw : binWidthOf (0 : ℝ) 0 = 0 := by norm_num [binWidthOf]
  refine ⟨by norm_num [ensembleMin], by norm_num [ensembleMax], ?_⟩
  rw [hbw]
  norm_num [buildHistogram, histogramStep, jsBinIndex]

/-- Claim C5 (amended: restricted to ensembles whose computed minimum
and maximum differ, so that the bin width is nonzero — the degenerate
`max == min` ensemble falsifies the unrestricted claim): the
aggregation produces exactly 20 bins, their counts sum to `m`, every
observed density is a finite value, and
`Σ observedDensity_i · binWidth = 1` exactly. -/
theorem aggregation_histogram_spec (vals : List ℝ) (mn mx : ℝ)
    (hmn : ensembleMin vals = some mn) (hmx : ensembleMax vals = some mx)
    (hne : mn ≠ mx) :
    (buildHistogram (binWidthOf mn mx) mn vals).length = 20 ∧
    (buildHistogram (binWidthOf mn mx) mn vals).sum = vals.length ∧
    (∀ d ∈ observedDensities vals.length (binWidthOf mn mx)
        (buildHistogram (binWidthOf mn mx) mn vals), d.isSome = true) ∧
    ((observedDensities vals.length (binWidthOf mn mx)
        (buildHistogram (binWidthOf mn mx) mn vals)).map
      (fun d => d.getD 0 * binWidthOf mn mx)).sum = 1 := by
  have hbw : binWidthOf mn mx ≠ 0 :=
    div_ne_zero (sub_ne_zero_of_ne (Ne.symm hne)) (by norm_num)
  have hnil : vals ≠ [] := ensembleMin_ne_nil vals mn hmn
  have hm : vals.length ≠ 0 := fun hc => hnil (List.length_eq_zero.mp hc)
  refine ⟨buildHistogram_length _ _ _, buildHistogram_sum _ _ hbw vals, ?_, ?_⟩
  · intro d hd
    unfold observedDensities at hd
    obtain ⟨c, _, rfl⟩ := List.mem_map.mp hd
    unfold observedDensity
    rw [if_neg hbw]
    rfl
  · have hfun : ((fun d : Option ℝ => d.getD 0 * binWidthOf mn mx) ∘
        observedDensity vals.length (binWidthOf mn mx)) =
        fun c : ℕ => (c : ℝ) / (vals.length : ℝ) := by
      funext c
      simp only [Function.comp, observedDensity, if_neg hbw, Option.getD_some]
      rw [div_mul_cancel₀ _ hbw]
    unfold observedDensities
    rw [List.map_map, hfun, sum_map_div, buildHistogram_sum _ _ hbw vals]
    exact div_self (Nat.cast_ne_zero.mpr hm)

/-- Witness for C5 at the concrete ensemble `[0, 20]`. -/
theorem aggregation_histogram_spec_witness :
    ensembleMin [(0 : ℝ), 20] = some 0 ∧ ensembleMax [(0 : ℝ), 20] = some 20 ∧
    (0 : ℝ) ≠ 20 ∧
    ((buildHistogram (binWidthOf 0 20) 0 [(0 : ℝ), 20]).length = 20 ∧
      (buildHistogram (binWidthOf 0 20) 0 [(0 : ℝ), 20]).sum = [(0 : ℝ), 20].length ∧
      (∀ d ∈ observedDensities [(0 : ℝ), 20].length (binWidthOf 0 20)
          (buildHistogram (binWidthOf 0 20) 0 [(0 : ℝ), 20]), d.isSome = true) ∧
      ((observedDensities [(0 : ℝ), 20].length (binWidthOf 0 20)
          (buildHistogram (binWidthOf 0 20) 0 [(0 : ℝ), 20])).map
        (fun d => d.getD 0 * binWidthOf 0 20)).sum = 1) :=
  ⟨by norm_num [ensembleMin], by norm_num [ensembleMax], by norm_num,
    aggregation_histogram_spec [(0 : ℝ), 20] 0 20 (by norm_num [ensembleMin])
      (by norm_num [ensembleMax]) (by norm_num)⟩

end Brownian
